import Mathlib

/-!
Shallow embedding of the phased-in codes compressor
(`src/common.rs`, `src/encoder.rs`, `src/decoder.rs`, `src/main.rs`).

Modelling conventions:
* `u8` / `usize` values are `Nat`; wherever the Rust arithmetic can wrap we
  write the wrap explicitly (`% 256`); where a wrap is impossible on the
  function's reachable domain we use plain `Nat` arithmetic and note the bound.
* A Rust operation that can panic (out-of-bounds indexing, underflow of an
  unsigned subtraction whose result is then used) is modelled with `Option`
  (`none` = the call panics / has no result).
* `BitVec<Msb0, u8>` is a `List Bool` (head = first bit, MSB-first) plus the
  capacity (in bits) of its backing allocation, which `write_to_file` reads.
-/

namespace PhasedIn

/-- Parameters driving encoder and decoder; `src/common.rs` `PhasedInParams`.
Fields are `u8` in the source. -/
structure PhasedInParams where
  num_symbols : Nat
  m : Nat
  p : Nat
  P : Nat
deriving DecidableEq

/-- `⌊log₂ n⌋` as a structurally recursive (hence kernel-computable) function:
`floorLog2Aux fuel n` halves `n` until it drops below 2, and `n` itself is
always enough fuel (see `floorLog2_bounds` for the characterisation). -/
def floorLog2Aux : Nat → Nat → Nat
  | 0, _ => 0
  | fuel + 1, n => if 2 ≤ n then floorLog2Aux fuel (n / 2) + 1 else 0

def floorLog2 (n : Nat) : Nat := floorLog2Aux n n

/-- `PhasedInParams::new` (`src/common.rs` lines 17-28).
`floor_log2` on a `u8` argument `n ≥ 1` computes `⌊log₂ n⌋`; for `n = 0` the
source crate's behaviour is undefined (the spec makes `N = 0` a caller error),
and for `1 ≤ n ≤ 255` none of the `u8` subtractions or the `1u8 << m` shift can
wrap, so the plain `Nat` arithmetic below is exact on that domain. -/
def PhasedInParams.new (num_symbols : Nat) : PhasedInParams :=
  let m := floorLog2 num_symbols
  let p := num_symbols - (1 <<< m)
  let P := (1 <<< m) - p
  { num_symbols := num_symbols, m := m, p := p, P := P }

/-- The `num_symbols` argument of `PhasedInParams::new` has Rust type `u8`,
so only values `≤ 255` can reach the function at all; this wrapper records
that type-level domain (`none` = the call cannot be written in the source
language). -/
def PhasedInParams.new? (n : Nat) : Option PhasedInParams :=
  if n ≤ 255 then some (PhasedInParams.new n) else none

/-- One encoded symbol (`src/encoder.rs` `EncodedSymbol`): the codeword bits
packed in a `u8` plus the number of low bits of it that are the codeword. -/
structure EncodedSymbol where
  symbol : Nat
  num_bits_encoded : Nat
deriving DecidableEq

/-- The low `len` bits of `v`, MSB-first: the bit sequence
`view_bits::<Msb0>()[8 - len ..]` of a `u8` holds (generalised to any `len`). -/
def toBitsMSB : Nat → Nat → List Bool
  | 0, _ => []
  | len + 1, v => toBitsMSB len (v / 2) ++ [decide (v % 2 = 1)]

/-- `EncodedSymbol::to_bitvec` (`src/encoder.rs` lines 43-46): the low
`num_bits_encoded` bits of `symbol`, MSB-first. -/
def EncodedSymbol.to_bitvec (s : EncodedSymbol) : List Bool :=
  toBitsMSB s.num_bits_encoded s.symbol

/-- The bit stream produced by the encoder (`src/encoder.rs` `EncodedStream`):
the live bits of the `BitVec<Msb0, u8>` plus the capacity, in bits, of its
backing buffer (`write_to_file` reads `capacity()`). -/
structure EncodedStream where
  stream : List Bool
  cap : Nat
deriving DecidableEq

/-- `EncodedStream::new` (`src/encoder.rs` lines 52-60): concatenate the bits
of every encoded symbol, in order, into one bit vector.  The vector is created
with `BitVec::with_capacity(symbols.len() * 8)`, i.e. a backing allocation of
exactly `symbols.len()` bytes; since every symbol contributes at most 8 bits
(`num_bits_encoded ≤ 8` for every parameter set the program can build), the
extends never reallocate and the final capacity is `8 * symbols.length` bits. -/
def EncodedStream.new (symbols : List EncodedSymbol) : EncodedStream :=
  { stream := symbols.foldl (fun acc s => acc ++ s.to_bitvec) []
    cap := 8 * symbols.length }

/-- `EncodedStream::from_encoded_bytes` (`src/encoder.rs` lines 72-83).
Byte 0 is the count of unused bits; the remaining bytes are viewed MSB-first
and the length is shrunk by `set_len((bytes.len() - 1) * 8 - num_unused_bits)`.
`none` models the two panics: `bytes[0]` on an empty slice, and the `usize`
underflow of the used-bit count when byte 0 exceeds the available bits.
`to_bitvec` of the byte slice allocates exactly `bytes.len() - 1` bytes, so the
capacity is `8 * (bytes.len() - 1)` bits. -/
def EncodedStream.from_encoded_bytes (bytes : List Nat) : Option EncodedStream :=
  match bytes with
  | [] => none
  | b0 :: rest =>
      if b0 ≤ 8 * rest.length then
        some { stream := ((rest.map (toBitsMSB 8)).flatten).take (8 * rest.length - b0)
               cap := 8 * rest.length }
      else none

/-- Unsigned value of a bit sequence, MSB-first (no width limit). -/
def bitsVal (l : List Bool) : Nat :=
  l.foldl (fun acc b => 2 * acc + (if b then 1 else 0)) 0

/-- The bytes backing a `BitVec<Msb0, u8>` of the given live bits, as returned
by `as_slice()`: `⌈len / 8⌉` bytes, each holding 8 bits MSB-first, the unused
low bits of the final byte zero.  Structural recursion on a length fuel. -/
def bitsToBytesAux : Nat → List Bool → List Nat
  | 0, _ => []
  | _ + 1, [] => []
  | fuel + 1, l@(_ :: _) =>
      bitsVal (l.take 8) * 2 ^ (8 - (l.take 8).length) :: bitsToBytesAux fuel (l.drop 8)

def bitsToBytes (l : List Bool) : List Nat :=
  bitsToBytesAux l.length l

/-- `EncodedStream::write_to_file` (`src/encoder.rs` lines 100-109), modelled
as the byte sequence written to the file: first
`(capacity() - len()) as u8` (the `usize` difference truncated to `u8`),
then the payload bytes `as_slice()`. -/
def EncodedStream.write_to_file (s : EncodedStream) : List Nat :=
  ((s.cap - s.stream.length) % 256) :: bitsToBytes s.stream

/-- The encoder (`src/encoder.rs` `Encoder`): parameters plus the table of
pre-encoded symbols. -/
structure Encoder where
  params : PhasedInParams
  encoded_symbols : List EncodedSymbol
deriving DecidableEq

/-- `Encoder::new` (`src/encoder.rs` lines 114-119): empty symbol table. -/
def Encoder.new (params : PhasedInParams) : Encoder :=
  { params := params, encoded_symbols := [] }

/-- `Encoder::encode_symbol` (`src/encoder.rs` lines 147-161).
`mask = !0u8 >> (8 - m)`; the `u8` shift `encoded_symbol << 1` silently drops
bit 7, hence the explicit `% 256`; on the program's reachable domain
(`m ≤ 7`, masked value `< 2 ^ m ≤ 128`) no value ever wraps. -/
def Encoder.encode_symbol (e : Encoder) (symbol : Nat) : EncodedSymbol :=
  let mask := 255 >>> (8 - e.params.m)
  if e.params.P ≤ symbol then
    let masked := (e.params.P + (symbol - e.params.P) / 2) &&& mask
    { symbol := ((masked <<< 1) % 256) ||| ((symbol - e.params.P) &&& 1)
      num_bits_encoded := e.params.m + 1 }
  else
    { symbol := symbol &&& mask, num_bits_encoded := e.params.m }

/-- `Encoder::compute_encoded_symbols` (`src/encoder.rs` lines 121-126):
push `encode_symbol(s)` for every `s` in `0 .. num_symbols` onto the table. -/
def Encoder.compute_encoded_symbols (e : Encoder) : Encoder :=
  { e with encoded_symbols :=
      e.encoded_symbols ++ (List.range e.params.num_symbols).map e.encode_symbol }

/-- Table lookups performed by `Encoder::encode_bytes`
(`self.encoded_symbols[*b as usize]` for each input byte, in order);
`none` models the out-of-bounds indexing panic. -/
def lookupAll (table : List EncodedSymbol) : List Nat → Option (List EncodedSymbol)
  | [] => some []
  | b :: rest =>
      match table[b]?, lookupAll table rest with
      | some s, some tail => some (s :: tail)
      | _, _ => none

/-- `Encoder::encode_bytes` (`src/encoder.rs` lines 140-143): look every input
byte up in the `encoded_symbols` table and concatenate the results. -/
def Encoder.encode_bytes (e : Encoder) (bytes : List Nat) : Option EncodedStream :=
  (lookupAll e.encoded_symbols bytes).map EncodedStream.new

/-- The encoder as the pipeline intends it: parameters derived from `n` and
the symbol table populated by `compute_encoded_symbols`. -/
def populatedEncoder (n : Nat) : Encoder :=
  (Encoder.new (PhasedInParams.new n)).compute_encoded_symbols

/-- `Decoder::byte_from_bitslice` (`src/decoder.rs` lines 25-33):
`res <<= 1; res |= bit` over the slice, in a `u8` (the shift drops bit 7,
hence `% 256`; with at most 8 input bits nothing is ever dropped). -/
def Decoder.byte_from_bitslice (l : List Bool) : Nat :=
  l.foldl (fun res bit => ((res <<< 1) % 256) ||| (if bit then 1 else 0)) 0

/-- Result of a run of the decode loop: `timeout` = the given fuel was
exhausted (the loop is still running), `fail` = a slice/index panic,
`ok` = normal return. -/
inductive DecodeOutcome where
  | timeout : DecodeOutcome
  | fail : DecodeOutcome
  | ok : List Nat → DecodeOutcome
deriving DecidableEq

/-- The `while cursor != bits.len()` loop of `Decoder::decode_stream`
(`src/decoder.rs` lines 42-57), fuel-indexed (one fuel per iteration).
Per iteration: slice `bits[cursor .. cursor + m]` (panic if it overruns),
`symbol := byte_from_bitslice` of it, and if `symbol >= P` also read
`bits[cursor + m]` (panic if out of range) and emit
`P + (symbol - P) * 2 + next_bit` (a `u8` sum, which cannot wrap while
`m ≤ 7`), else emit `symbol`. -/
def Decoder.decodeLoop (ps : PhasedInParams) (bits : List Bool) :
    Nat → Nat → DecodeOutcome
  | 0, _ => DecodeOutcome.timeout
  | fuel + 1, cursor =>
      if cursor = bits.length then DecodeOutcome.ok []
      else if cursor + ps.m ≤ bits.length then
        let symbol := Decoder.byte_from_bitslice ((bits.drop cursor).take ps.m)
        if ps.P ≤ symbol then
          if cursor + ps.m < bits.length then
            let next_bit : Nat := if bits.getD (cursor + ps.m) false then 1 else 0
            match Decoder.decodeLoop ps bits fuel (cursor + ps.m + 1) with
            | DecodeOutcome.ok rest =>
                DecodeOutcome.ok (((ps.P + (symbol - ps.P) * 2 + next_bit) % 256) :: rest)
            | r => r
          else DecodeOutcome.fail
        else
          match Decoder.decodeLoop ps bits fuel (cursor + ps.m) with
          | DecodeOutcome.ok rest => DecodeOutcome.ok (symbol :: rest)
          | r => r
      else DecodeOutcome.fail

/-- `Decoder::decode_stream` (`src/decoder.rs` lines 37-60).  When the loop
terminates it runs at most `bits.length + 1` iterations (the cursor strictly
increases while `m ≥ 1`), so that fuel reproduces every terminating run;
for `m = 0` the loop never terminates on a non-empty stream and every fuel
yields `timeout`. -/
def Decoder.decode_stream (ps : PhasedInParams) (s : EncodedStream) : DecodeOutcome :=
  Decoder.decodeLoop ps s.stream (s.stream.length + 1) 0

/-- The `Action::Compress` arm of `main` (`src/main.rs` lines 20-25): derive
parameters, build a fresh encoder (no `compute_encoded_symbols` call), encode,
and write; the result is the byte sequence written to the output file. -/
def mainCompress (num_symbols : Nat) (input_contents : List Nat) : Option (List Nat) :=
  let params := PhasedInParams.new num_symbols
  let encoder := Encoder.new params
  (encoder.encode_bytes input_contents).map EncodedStream.write_to_file

/-- Modelled from the spec (section 4.4), for the refinement claim about the
decode loop: the same loop with `v` written as the plain unsigned value of the
next `m` bits and the decoded symbol as `P + (v − P) × 2 + b`, no `u8`
truncation anywhere. -/
def decodeSpecLoop (ps : PhasedInParams) (bits : List Bool) :
    Nat → Nat → DecodeOutcome
  | 0, _ => DecodeOutcome.timeout
  | fuel + 1, cursor =>
      if cursor = bits.length then DecodeOutcome.ok []
      else if cursor + ps.m ≤ bits.length then
        let v := bitsVal ((bits.drop cursor).take ps.m)
        if v < ps.P then
          match decodeSpecLoop ps bits fuel (cursor + ps.m) with
          | DecodeOutcome.ok rest => DecodeOutcome.ok (v :: rest)
          | r => r
        else
          if cursor + ps.m < bits.length then
            let b : Nat := if bits.getD (cursor + ps.m) false then 1 else 0
            match decodeSpecLoop ps bits fuel (cursor + ps.m + 1) with
            | DecodeOutcome.ok rest =>
                DecodeOutcome.ok ((ps.P + (v - ps.P) * 2 + b) :: rest)
            | r => r
          else DecodeOutcome.fail
      else DecodeOutcome.fail

/-! ### Bit-level helper lemmas -/

lemma toBitsMSB_succ (len v : Nat) :
    toBitsMSB (len + 1) v = toBitsMSB len (v / 2) ++ [decide (v % 2 = 1)] := rfl

lemma toBitsMSB_length (len v : Nat) : (toBitsMSB len v).length = len := by
  induction len generalizing v with
  | zero => rfl
  | succ k ih => simp [toBitsMSB, ih]

lemma bitsVal_append_bit (l : List Bool) (b : Bool) :
    bitsVal (l ++ [b]) = 2 * bitsVal l + (if b then 1 else 0) := by
  simp [bitsVal, List.foldl_append]

lemma bitsVal_toBitsMSB (len v : Nat) (h : v < 2 ^ len) :
    bitsVal (toBitsMSB len v) = v := by
  induction len generalizing v with
  | zero =>
      simp only [Nat.pow_zero, Nat.lt_one_iff] at h
      simp [toBitsMSB, bitsVal, h]
  | succ k ih =>
      have hv2 : v / 2 < 2 ^ k := by
        have := Nat.pow_succ 2 k
        omega
      have hrec := ih (v / 2) hv2
      have hmod := Nat.mod_two_eq_zero_or_one v
      have hdm := Nat.div_add_mod v 2
      rcases hmod with hm | hm <;>
        simp [toBitsMSB, bitsVal_append_bit, hrec, hm] <;> omega

lemma bitsVal_foldl (l : List Bool) :
    ∀ a : Nat,
      l.foldl (fun acc b => 2 * acc + (if b then 1 else 0)) a
        = a * 2 ^ l.length + bitsVal l := by
  induction l with
  | nil => intro a; simp [bitsVal]
  | cons b t ih =>
      intro a
      have h1 := ih (2 * a + (if b then 1 else 0))
      have h2 := ih (if b then 1 else 0)
      simp only [List.foldl_cons, List.length_cons]
      rw [h1]
      have hbv : bitsVal (b :: t) = (if b then 1 else 0) * 2 ^ t.length + bitsVal t := by
        simpa [bitsVal] using h2
      rw [hbv, Nat.pow_succ]
      ring

lemma bitsVal_lt (l : List Bool) : bitsVal l < 2 ^ l.length := by
  induction l with
  | nil => simp [bitsVal]
  | cons b t ih =>
      have h := bitsVal_foldl t (if b then 1 else 0)
      have hbv : bitsVal (b :: t) = (if b then 1 else 0) * 2 ^ t.length + bitsVal t := by
        simpa [bitsVal] using h
      rw [hbv]
      simp only [List.length_cons, Nat.pow_succ]
      rcases Bool.dichotomy b with hb | hb <;> simp [hb] <;> omega

lemma two_mul_or_one (a : Nat) : 2 * a ||| 1 = 2 * a + 1 := by
  have h := Nat.lor_bit false a true 0
  simpa [Nat.bit] using h

lemma two_mul_or_bit (a b : Nat) (hb : b < 2) : 2 * a ||| b = 2 * a + b := by
  interval_cases b
  · simp
  · exact two_mul_or_one a

/-- The `u8` fold of `byte_from_bitslice` tracks the plain value modulo 256. -/
lemma byte_from_bitslice_mod (l : List Bool) :
    ∀ a : Nat,
      l.foldl (fun res bit => ((res <<< 1) % 256) ||| (if bit then 1 else 0)) (a % 256)
        = (l.foldl (fun acc b => 2 * acc + (if b then 1 else 0)) a) % 256 := by
  induction l with
  | nil => intro a; rfl
  | cons b t ih =>
      intro a
      have hc : (if b then (1 : Nat) else 0) < 2 := by
        rcases Bool.dichotomy b with h | h <;> simp [h]
      have h1 : ((a % 256) <<< 1) % 256 = 2 * (a % 128) := by
        rw [Nat.shiftLeft_eq]
        have : (2 : Nat) ^ 1 = 2 := rfl
        rw [this]
        omega
      have h2 : 2 * (a % 128) ||| (if b then 1 else 0) =
          2 * (a % 128) + (if b then 1 else 0) := two_mul_or_bit _ _ hc
      have h3 : 2 * (a % 128) + (if b then 1 else 0) =
          (2 * a + (if b then 1 else 0)) % 256 := by omega
      simp only [List.foldl_cons, h1, h2, h3]
      exact ih (2 * a + (if b then 1 else 0))

/-- `byte_from_bitslice` agrees with the plain unsigned value on slices of at
most 8 bits: no `u8` truncation can occur. -/
lemma byte_from_bitslice_eq (l : List Bool) (h : l.length ≤ 8) :
    Decoder.byte_from_bitslice l = bitsVal l := by
  have hmod := byte_from_bitslice_mod l 0
  have hlt : bitsVal l < 256 := by
    have h1 := bitsVal_lt l
    have h2 : (2 : Nat) ^ l.length ≤ 2 ^ 8 := Nat.pow_le_pow_right (by omega) h
    norm_num at h2
    omega
  unfold Decoder.byte_from_bitslice
  calc l.foldl (fun res bit => ((res <<< 1) % 256) ||| (if bit then 1 else 0)) 0
      = l.foldl (fun res bit => ((res <<< 1) % 256) ||| (if bit then 1 else 0)) (0 % 256) := rfl
    _ = (l.foldl (fun acc b => 2 * acc + (if b then 1 else 0)) 0) % 256 := hmod
    _ = bitsVal l % 256 := rfl
    _ = bitsVal l := Nat.mod_eq_of_lt hlt

/-! ### Parameter facts -/

lemma floorLog2Aux_bounds :
    ∀ (fuel n : Nat), 1 ≤ n → n ≤ fuel →
      2 ^ floorLog2Aux fuel n ≤ n ∧ n < 2 ^ (floorLog2Aux fuel n + 1) := by
  intro fuel
  induction fuel with
  | zero => intro n h1 h2; omega
  | succ f ih =>
      intro n h1 h2
      show 2 ^ (if 2 ≤ n then floorLog2Aux f (n / 2) + 1 else 0) ≤ n ∧
        n < 2 ^ ((if 2 ≤ n then floorLog2Aux f (n / 2) + 1 else 0) + 1)
      by_cases h : 2 ≤ n
      · rw [if_pos h]
        have hdiv1 : 1 ≤ n / 2 := by omega
        have hdiv2 : n / 2 ≤ f := by omega
        obtain ⟨ha, hb⟩ := ih (n / 2) hdiv1 hdiv2
        have hp1 : (2 : Nat) ^ (floorLog2Aux f (n / 2) + 1)
            = 2 ^ floorLog2Aux f (n / 2) * 2 := Nat.pow_succ 2 _
        have hp2 : (2 : Nat) ^ (floorLog2Aux f (n / 2) + 1 + 1)
            = 2 ^ (floorLog2Aux f (n / 2) + 1) * 2 := Nat.pow_succ 2 _
        constructor
        · rw [hp1]; omega
        · rw [hp2, hp1]; rw [hp1] at hb; omega
      · rw [if_neg h]
        constructor
        · simpa using h1
        · simp; omega

lemma pow_floorLog2_le {n : Nat} (h : 1 ≤ n) : 2 ^ floorLog2 n ≤ n :=
  (floorLog2Aux_bounds n n h (le_refl n)).1

lemma lt_pow_floorLog2 {n : Nat} (h : 1 ≤ n) : n < 2 ^ (floorLog2 n + 1) :=
  (floorLog2Aux_bounds n n h (le_refl n)).2

lemma floorLog2_le_seven {n : Nat} (h1 : 1 ≤ n) (h2 : n ≤ 255) :
    floorLog2 n ≤ 7 := by
  by_contra hc
  have h8 : 8 ≤ floorLog2 n := by omega
  have hpow : (2 : Nat) ^ 8 ≤ 2 ^ floorLog2 n := Nat.pow_le_pow_right (by omega) h8
  have := pow_floorLog2_le h1
  norm_num at hpow
  omega

lemma one_le_floorLog2 {n : Nat} (h : 2 ≤ n) : 1 ≤ floorLog2 n := by
  by_contra hc
  have h0 : floorLog2 n = 0 := by omega
  have := lt_pow_floorLog2 (n := n) (by omega)
  rw [h0] at this
  norm_num at this
  omega

lemma new_num_symbols (n : Nat) : (PhasedInParams.new n).num_symbols = n := rfl

lemma new_m (n : Nat) : (PhasedInParams.new n).m = floorLog2 n := rfl

lemma new_p (n : Nat) : (PhasedInParams.new n).p = n - 2 ^ floorLog2 n := by
  simp [PhasedInParams.new, Nat.one_shiftLeft]

lemma new_P (n : Nat) :
    (PhasedInParams.new n).P = 2 ^ floorLog2 n - (n - 2 ^ floorLog2 n) := by
  simp [PhasedInParams.new, Nat.one_shiftLeft]

lemma new_P_eq {n : Nat} (h1 : 1 ≤ n) :
    (PhasedInParams.new n).P = 2 ^ (floorLog2 n + 1) - n := by
  have hle := pow_floorLog2_le h1
  have hlt := lt_pow_floorLog2 h1
  rw [new_P]
  rw [Nat.pow_succ] at hlt ⊢
  omega

lemma new_P_le_pow {n : Nat} (h1 : 1 ≤ n) :
    (PhasedInParams.new n).P ≤ 2 ^ floorLog2 n := by
  have hle := pow_floorLog2_le h1
  rw [new_P_eq h1, Nat.pow_succ]
  omega

lemma new_P_pos {n : Nat} (h1 : 1 ≤ n) : 1 ≤ (PhasedInParams.new n).P := by
  have hlt := lt_pow_floorLog2 h1
  rw [new_P_eq h1]
  omega

lemma one_le_m {n : Nat} (h : 2 ≤ n) : 1 ≤ (PhasedInParams.new n).m := by
  rw [new_m]
  exact one_le_floorLog2 h

lemma m_le_seven {n : Nat} (h1 : 1 ≤ n) (h2 : n ≤ 255) :
    (PhasedInParams.new n).m ≤ 7 := by
  rw [new_m]; exact floorLog2_le_seven h1 h2

/-- The `!0u8 >> (8 - m)` mask equals `2 ^ m - 1` for every `m ≤ 8`. -/
lemma mask_eq : ∀ m : Nat, m ≤ 8 → 255 >>> (8 - m) = 2 ^ m - 1 := by decide

/-! ### Characterisation of `encode_symbol` -/

lemma encode_symbol_short {n : Nat} (h1 : 1 ≤ n) (h2 : n ≤ 255) (s : Nat)
    (hs : s < (PhasedInParams.new n).P) :
    (Encoder.new (PhasedInParams.new n)).encode_symbol s
      = { symbol := s, num_bits_encoded := (PhasedInParams.new n).m } := by
  have hm7 : (PhasedInParams.new n).m ≤ 7 := m_le_seven h1 h2
  have hmask := mask_eq (PhasedInParams.new n).m (by omega)
  have hsp : s < 2 ^ (PhasedInParams.new n).m := by
    have hPle := new_P_le_pow h1
    rw [new_m]
    omega
  unfold Encoder.encode_symbol
  simp only [Encoder.new]
  rw [if_neg (by omega)]
  rw [hmask, Nat.and_pow_two_sub_one_eq_mod, Nat.mod_eq_of_lt hsp]

lemma encode_symbol_long {n : Nat} (h1 : 1 ≤ n) (h2 : n ≤ 255) (s : Nat)
    (hP : (PhasedInParams.new n).P ≤ s) (hn : s < n) :
    (Encoder.new (PhasedInParams.new n)).encode_symbol s
      = { symbol := 2 * ((PhasedInParams.new n).P + (s - (PhasedInParams.new n).P) / 2)
              + (s - (PhasedInParams.new n).P) % 2
          num_bits_encoded := (PhasedInParams.new n).m + 1 } := by
  have hm7 : (PhasedInParams.new n).m ≤ 7 := m_le_seven h1 h2
  have hmask := mask_eq (PhasedInParams.new n).m (by omega)
  have hle : 2 ^ floorLog2 n ≤ n := pow_floorLog2_le h1
  have hlt : n < 2 ^ (floorLog2 n + 1) := lt_pow_floorLog2 (by omega)
  have hPe : (PhasedInParams.new n).P = 2 ^ (floorLog2 n + 1) - n := new_P_eq h1
  have hpow : (2 : Nat) ^ (floorLog2 n + 1) = 2 ^ floorLog2 n * 2 := Nat.pow_succ 2 _
  have hmeq : (PhasedInParams.new n).m = floorLog2 n := new_m n
  -- the masked base code is below 2 ^ m, so the mask and `% 256` are identities
  have hbase : (PhasedInParams.new n).P + (s - (PhasedInParams.new n).P) / 2
      < 2 ^ (PhasedInParams.new n).m := by
    rw [hmeq, hPe]
    omega
  have hpow256 : (2 : Nat) ^ (PhasedInParams.new n).m ≤ 128 := by
    calc (2 : Nat) ^ (PhasedInParams.new n).m ≤ 2 ^ 7 := Nat.pow_le_pow_right (by omega) hm7
      _ = 128 := by norm_num
  unfold Encoder.encode_symbol
  simp only [Encoder.new]
  rw [if_pos hP, hmask, Nat.and_pow_two_sub_one_eq_mod, Nat.mod_eq_of_lt hbase]
  rw [Nat.and_one_is_mod, Nat.shiftLeft_eq]
  have hsh : ((PhasedInParams.new n).P + (s - (PhasedInParams.new n).P) / 2) * 2 ^ 1
      = 2 * ((PhasedInParams.new n).P + (s - (PhasedInParams.new n).P) / 2) := by ring
  rw [hsh, Nat.mod_eq_of_lt (by omega)]
  have hor := two_mul_or_bit
    ((PhasedInParams.new n).P + (s - (PhasedInParams.new n).P) / 2)
    ((s - (PhasedInParams.new n).P) % 2) (by omega)
  rw [hor]

lemma to_bitvec_short {n : Nat} (h1 : 1 ≤ n) (h2 : n ≤ 255) (s : Nat)
    (hs : s < (PhasedInParams.new n).P) :
    ((Encoder.new (PhasedInParams.new n)).encode_symbol s).to_bitvec
      = toBitsMSB (PhasedInParams.new n).m s := by
  rw [encode_symbol_short h1 h2 s hs]
  rfl

lemma to_bitvec_long {n : Nat} (h1 : 1 ≤ n) (h2 : n ≤ 255) (s : Nat)
    (hP : (PhasedInParams.new n).P ≤ s) (hn : s < n) :
    ((Encoder.new (PhasedInParams.new n)).encode_symbol s).to_bitvec
      = toBitsMSB (PhasedInParams.new n).m
          ((PhasedInParams.new n).P + (s - (PhasedInParams.new n).P) / 2)
        ++ [decide ((s - (PhasedInParams.new n).P) % 2 = 1)] := by
  rw [encode_symbol_long h1 h2 s hP hn]
  unfold EncodedSymbol.to_bitvec
  simp only
  rw [toBitsMSB_succ]
  have hr : (s - (PhasedInParams.new n).P) % 2 < 2 := Nat.mod_lt _ (by omega)
  have hdiv : (2 * ((PhasedInParams.new n).P + (s - (PhasedInParams.new n).P) / 2)
      + (s - (PhasedInParams.new n).P) % 2) / 2
      = (PhasedInParams.new n).P + (s - (PhasedInParams.new n).P) / 2 := by omega
  have hmod : (2 * ((PhasedInParams.new n).P + (s - (PhasedInParams.new n).P) / 2)
      + (s - (PhasedInParams.new n).P) % 2) % 2
      = (s - (PhasedInParams.new n).P) % 2 := by omega
  rw [hdiv, hmod]

/-! ### The encoder pipeline -/

lemma populated_table (n : Nat) :
    (populatedEncoder n).encoded_symbols
      = (List.range n).map (Encoder.new (PhasedInParams.new n)).encode_symbol := by
  simp [populatedEncoder, Encoder.compute_encoded_symbols, Encoder.new,
    PhasedInParams.new]

lemma populated_params (n : Nat) :
    (populatedEncoder n).params = PhasedInParams.new n := rfl

lemma lookupAll_map {n : Nat} :
    ∀ S : List Nat, (∀ s ∈ S, s < n) →
      lookupAll (populatedEncoder n).encoded_symbols S
        = some (S.map (Encoder.new (PhasedInParams.new n)).encode_symbol) := by
  intro S
  induction S with
  | nil => intro _; rfl
  | cons b rest ih =>
      intro h
      have hb : b < n := h b (by simp)
      have hrest := ih (fun s hs => h s (by simp [hs]))
      have hget : (populatedEncoder n).encoded_symbols[b]?
          = some ((Encoder.new (PhasedInParams.new n)).encode_symbol b) := by
        rw [populated_table, List.getElem?_map, List.getElem?_range hb]
        rfl
      simp [lookupAll, hget, hrest]

lemma lookupAll_nil_table : ∀ bytes : List Nat, bytes ≠ [] →
    lookupAll ([] : List EncodedSymbol) bytes = none := by
  intro bytes hne
  cases bytes with
  | nil => exact absurd rfl hne
  | cons b rest => rfl

lemma lookupAll_out_of_range {n b : Nat} (hb : n ≤ b) (bytes : List Nat) :
    lookupAll (populatedEncoder n).encoded_symbols (b :: bytes) = none := by
  have hlen : (populatedEncoder n).encoded_symbols.length = n := by
    rw [populated_table]; simp
  have hget : (populatedEncoder n).encoded_symbols[b]? = none := by
    rw [List.getElem?_eq_none]
    omega
  simp [lookupAll, hget]

lemma foldl_append_eq_flatten :
    ∀ (syms : List EncodedSymbol) (acc : List Bool),
      syms.foldl (fun a s => a ++ s.to_bitvec) acc
        = acc ++ (syms.map EncodedSymbol.to_bitvec).flatten := by
  intro syms
  induction syms with
  | nil => intro acc; simp
  | cons s rest ih =>
      intro acc
      simp only [List.foldl_cons, List.map_cons, List.flatten_cons]
      rw [ih (acc ++ s.to_bitvec), List.append_assoc]

lemma new_stream_eq (syms : List EncodedSymbol) :
    (EncodedStream.new syms).stream = (syms.map EncodedSymbol.to_bitvec).flatten := by
  unfold EncodedStream.new
  simpa using foldl_append_eq_flatten syms []

lemma encode_bytes_populated {n : Nat} (S : List Nat) (h : ∀ s ∈ S, s < n) :
    (populatedEncoder n).encode_bytes S
      = some (EncodedStream.new
          (S.map (Encoder.new (PhasedInParams.new n)).encode_symbol)) := by
  unfold Encoder.encode_bytes
  rw [lookupAll_map S h]
  rfl

/-- For `n ≥ 2` every codeword has at least one bit, so the packed stream has
at least one bit per input symbol. -/
lemma length_le_flatten {n : Nat} (h2 : 2 ≤ n) (h255 : n ≤ 255) :
    ∀ S : List Nat, (∀ s ∈ S, s < n) →
      S.length ≤
        ((S.map (fun s =>
          ((Encoder.new (PhasedInParams.new n)).encode_symbol s).to_bitvec)).flatten).length := by
  intro S
  induction S with
  | nil => intro _; simp
  | cons s rest ih =>
      intro h
      have hs : s < n := h s (by simp)
      have hm1 : 1 ≤ (PhasedInParams.new n).m := one_le_m h2
      have hcode : 1 ≤ ((Encoder.new (PhasedInParams.new n)).encode_symbol s).to_bitvec.length := by
        by_cases hP : s < (PhasedInParams.new n).P
        · rw [to_bitvec_short (by omega) h255 s hP, toBitsMSB_length]; omega
        · rw [to_bitvec_long (by omega) h255 s (by omega) hs]
          simp [toBitsMSB_length]
      have hrest := ih (fun x hx => h x (by simp [hx]))
      simp only [List.map_cons, List.flatten_cons, List.length_cons, List.length_append]
      omega

/-! ### The decode loop -/

lemma decodeLoop_zero (ps : PhasedInParams) (bits : List Bool) (cursor : Nat) :
    Decoder.decodeLoop ps bits 0 cursor = DecodeOutcome.timeout := rfl

lemma decodeLoop_succ (ps : PhasedInParams) (bits : List Bool) (f cursor : Nat) :
    Decoder.decodeLoop ps bits (f + 1) cursor =
      if cursor = bits.length then DecodeOutcome.ok []
      else if cursor + ps.m ≤ bits.length then
        let symbol := Decoder.byte_from_bitslice ((bits.drop cursor).take ps.m)
        if ps.P ≤ symbol then
          if cursor + ps.m < bits.length then
            let next_bit : Nat := if bits.getD (cursor + ps.m) false then 1 else 0
            match Decoder.decodeLoop ps bits f (cursor + ps.m + 1) with
            | DecodeOutcome.ok rest =>
                DecodeOutcome.ok (((ps.P + (symbol - ps.P) * 2 + next_bit) % 256) :: rest)
            | r => r
          else DecodeOutcome.fail
        else
          match Decoder.decodeLoop ps bits f (cursor + ps.m) with
          | DecodeOutcome.ok rest => DecodeOutcome.ok (symbol :: rest)
          | r => r
      else DecodeOutcome.fail := rfl

/-- Decoding a stream that is some prefix `bits0` followed by the exact
concatenation of the codewords of `S`, starting at the cursor that marks the
end of `bits0`, yields exactly `S`. -/
lemma decodeLoop_encodeAll {n : Nat} (h2 : 2 ≤ n) (h255 : n ≤ 255) :
    ∀ (S : List Nat) (bits0 : List Bool) (fuel : Nat),
      (∀ s ∈ S, s < n) → S.length < fuel →
      Decoder.decodeLoop (PhasedInParams.new n)
        (bits0 ++ (S.map (fun s =>
          ((Encoder.new (PhasedInParams.new n)).encode_symbol s).to_bitvec)).flatten)
        fuel bits0.length = DecodeOutcome.ok S := by
  intro S
  induction S with
  | nil =>
      intro bits0 fuel _ hfuel
      cases fuel with
      | zero => omega
      | succ f => simp [decodeLoop_succ]
  | cons s rest ih =>
      intro bits0 fuel h hfuel
      cases fuel with
      | zero => omega
      | succ f =>
      have hs : s < n := h s (by simp)
      have hrest : ∀ x ∈ rest, x < n := fun x hx => h x (by simp [hx])
      have hm1 : 1 ≤ (PhasedInParams.new n).m := one_le_m h2
      have hm7 : (PhasedInParams.new n).m ≤ 7 := m_le_seven (by omega) h255
      have hPle : (PhasedInParams.new n).P ≤ 2 ^ (PhasedInParams.new n).m := by
        rw [new_m]; exact new_P_le_pow (by omega)
      have hfuel' : rest.length < f := by
        simp only [List.length_cons] at hfuel; omega
      simp only [List.map_cons, List.flatten_cons]
      by_cases hP : s < (PhasedInParams.new n).P
      · -- short codeword: the next m bits are the symbol itself
        rw [to_bitvec_short (by omega) h255 s hP]
        have hclen : (toBitsMSB (PhasedInParams.new n).m s).length
            = (PhasedInParams.new n).m := toBitsMSB_length _ s
        have hslt : s < 2 ^ (PhasedInParams.new n).m := by omega
        rw [decodeLoop_succ]
        rw [if_neg (by simp only [List.length_append, hclen]; omega)]
        rw [if_pos (by simp only [List.length_append, hclen]; omega)]
        simp only [List.drop_left, List.take_left' hclen]
        rw [byte_from_bitslice_eq _ (by omega), bitsVal_toBitsMSB _ s hslt]
        rw [if_neg (by omega)]
        have hcur : bits0.length + (PhasedInParams.new n).m
            = (bits0 ++ toBitsMSB (PhasedInParams.new n).m s).length := by
          simp only [List.length_append, hclen]
        have hassoc : bits0 ++ (toBitsMSB (PhasedInParams.new n).m s ++
              (rest.map (fun x =>
                ((Encoder.new (PhasedInParams.new n)).encode_symbol x).to_bitvec)).flatten)
            = (bits0 ++ toBitsMSB (PhasedInParams.new n).m s) ++
              (rest.map (fun x =>
                ((Encoder.new (PhasedInParams.new n)).encode_symbol x).to_bitvec)).flatten := by
          rw [List.append_assoc]
        rw [hcur, hassoc, ih _ f hrest hfuel']
      · -- long codeword: base bits then the parity bit
        push_neg at hP
        rw [to_bitvec_long (by omega) h255 s hP hs]
        have hle : 2 ^ floorLog2 n ≤ n := pow_floorLog2_le (by omega)
        have hlt : n < 2 ^ (floorLog2 n + 1) := lt_pow_floorLog2 (by omega)
        have hPe : (PhasedInParams.new n).P = 2 ^ (floorLog2 n + 1) - n := new_P_eq (by omega)
        have hpow : (2 : Nat) ^ (floorLog2 n + 1) = 2 ^ floorLog2 n * 2 := Nat.pow_succ 2 _
        have hmeq : (PhasedInParams.new n).m = floorLog2 n := new_m n
        have hbase : (PhasedInParams.new n).P + (s - (PhasedInParams.new n).P) / 2
            < 2 ^ (PhasedInParams.new n).m := by
          rw [hmeq, hPe]; omega
        have hclen : (toBitsMSB (PhasedInParams.new n).m
              ((PhasedInParams.new n).P + (s - (PhasedInParams.new n).P) / 2)).length
            = (PhasedInParams.new n).m := toBitsMSB_length _ _
        rw [decodeLoop_succ]
        rw [List.append_assoc (toBitsMSB (PhasedInParams.new n).m _) _ _]
        rw [if_neg (by simp only [List.length_append, hclen, List.length_cons,
          List.length_nil]; omega)]
        rw [if_pos (by simp only [List.length_append, hclen, List.length_cons,
          List.length_nil]; omega)]
        simp only [List.drop_left, List.take_left' hclen]
        rw [byte_from_bitslice_eq _ (by omega), bitsVal_toBitsMSB _ _ hbase]
        rw [if_pos (by omega)]
        rw [if_pos (by simp only [List.length_append, hclen, List.length_cons,
          List.length_nil]; omega)]
        have hbit : (bits0 ++ (toBitsMSB (PhasedInParams.new n).m
              ((PhasedInParams.new n).P + (s - (PhasedInParams.new n).P) / 2) ++
              ([decide ((s - (PhasedInParams.new n).P) % 2 = 1)] ++
                (rest.map (fun x =>
                  ((Encoder.new (PhasedInParams.new n)).encode_symbol x).to_bitvec)).flatten))).getD
            (bits0.length + (PhasedInParams.new n).m) false
            = decide ((s - (PhasedInParams.new n).P) % 2 = 1) := by
          rw [List.getD_eq_getElem?_getD]
          rw [List.getElem?_append_right (by omega)]
          have hidx : bits0.length + (PhasedInParams.new n).m - bits0.length
              = (PhasedInParams.new n).m := by omega
          rw [hidx]
          rw [List.getElem?_append_right (by rw [hclen])]
          simp [hclen]
        rw [hbit]
        have hnext : (if decide ((s - (PhasedInParams.new n).P) % 2 = 1) = true
              then (1 : Nat) else 0) = (s - (PhasedInParams.new n).P) % 2 := by
          rcases Nat.mod_two_eq_zero_or_one (s - (PhasedInParams.new n).P) with hr | hr <;>
            simp [hr]
        have hsym : ((PhasedInParams.new n).P +
              ((PhasedInParams.new n).P + (s - (PhasedInParams.new n).P) / 2
                - (PhasedInParams.new n).P) * 2
              + (s - (PhasedInParams.new n).P) % 2) % 256 = s := by
          have hs255 : s < 256 := by omega
          have : (PhasedInParams.new n).P +
              ((PhasedInParams.new n).P + (s - (PhasedInParams.new n).P) / 2
                - (PhasedInParams.new n).P) * 2
              + (s - (PhasedInParams.new n).P) % 2 = s := by omega
          rw [this, Nat.mod_eq_of_lt hs255]
        have hcur : bits0.length + (PhasedInParams.new n).m + 1
            = (bits0 ++ (toBitsMSB (PhasedInParams.new n).m
                ((PhasedInParams.new n).P + (s - (PhasedInParams.new n).P) / 2) ++
                [decide ((s - (PhasedInParams.new n).P) % 2 = 1)])).length := by
          simp only [List.length_append, hclen, List.length_cons, List.length_nil]
          omega
        have hassoc : bits0 ++ (toBitsMSB (PhasedInParams.new n).m
              ((PhasedInParams.new n).P + (s - (PhasedInParams.new n).P) / 2) ++
              ([decide ((s - (PhasedInParams.new n).P) % 2 = 1)] ++
                (rest.map (fun x =>
                  ((Encoder.new (PhasedInParams.new n)).encode_symbol x).to_bitvec)).flatten))
            = (bits0 ++ (toBitsMSB (PhasedInParams.new n).m
                ((PhasedInParams.new n).P + (s - (PhasedInParams.new n).P) / 2) ++
                [decide ((s - (PhasedInParams.new n).P) % 2 = 1)])) ++
              (rest.map (fun x =>
                ((Encoder.new (PhasedInParams.new n)).encode_symbol x).to_bitvec)).flatten := by
          simp [List.append_assoc]
        rw [hnext, hsym, hcur, hassoc, ih _ f hrest hfuel']

/-- Round trip: encoding with a populated table and then decoding returns the
input, for every `2 ≤ n ≤ 255` and every input whose bytes are all `< n`. -/
lemma round_trip_aux {n : Nat} (h2 : 2 ≤ n) (h255 : n ≤ 255) (S : List Nat)
    (hS : ∀ s ∈ S, s < n) :
    ∃ st, (populatedEncoder n).encode_bytes S = some st ∧
      Decoder.decode_stream (PhasedInParams.new n) st = DecodeOutcome.ok S := by
  refine ⟨_, encode_bytes_populated S hS, ?_⟩
  have hst : (EncodedStream.new
        (S.map (Encoder.new (PhasedInParams.new n)).encode_symbol)).stream
      = (S.map (fun s =>
          ((Encoder.new (PhasedInParams.new n)).encode_symbol s).to_bitvec)).flatten := by
    rw [new_stream_eq, List.map_map]
    rfl
  unfold Decoder.decode_stream
  rw [hst]
  have hlen := length_le_flatten h2 h255 S hS
  have hmain := decodeLoop_encodeAll h2 h255 S []
      (((S.map (fun s =>
        ((Encoder.new (PhasedInParams.new n)).encode_symbol s).to_bitvec)).flatten).length + 1)
      hS (by omega)
  simpa using hmain

/-- While `m ≥ 1` the cursor strictly increases, so fuel `bits.length - cursor`
plus one suffices: the loop never times out. -/
lemma decodeLoop_no_timeout {n : Nat} (h2 : 2 ≤ n) (h255 : n ≤ 255)
    (bits : List Bool) :
    ∀ (fuel cursor : Nat), bits.length - cursor < fuel →
      Decoder.decodeLoop (PhasedInParams.new n) bits fuel cursor
        ≠ DecodeOutcome.timeout := by
  intro fuel
  induction fuel with
  | zero => intro cursor h; omega
  | succ f ih =>
      intro cursor h
      have hm1 : 1 ≤ (PhasedInParams.new n).m := one_le_m h2
      simp only [decodeLoop_succ]
      by_cases h1 : cursor = bits.length
      · simp [h1]
      rw [if_neg h1]
      by_cases hc2 : cursor + (PhasedInParams.new n).m ≤ bits.length
      case neg => rw [if_neg hc2]; simp
      rw [if_pos hc2]
      by_cases h3 : (PhasedInParams.new n).P ≤
          Decoder.byte_from_bitslice ((bits.drop cursor).take (PhasedInParams.new n).m)
      · rw [if_pos h3]
        by_cases h4 : cursor + (PhasedInParams.new n).m < bits.length
        · rw [if_pos h4]
          have hrec := ih (cursor + (PhasedInParams.new n).m + 1) (by omega)
          cases hres : Decoder.decodeLoop (PhasedInParams.new n) bits f
              (cursor + (PhasedInParams.new n).m + 1) with
          | timeout => exact absurd hres hrec
          | fail => simp [hres]
          | ok r => simp [hres]
        · rw [if_neg h4]; simp
      · rw [if_neg h3]
        have hrec := ih (cursor + (PhasedInParams.new n).m) (by omega)
        cases hres : Decoder.decodeLoop (PhasedInParams.new n) bits f
            (cursor + (PhasedInParams.new n).m) with
        | timeout => exact absurd hres hrec
        | fail => simp [hres]
        | ok r => simp [hres]

/-- For `n = 1` the derived `m` is `0`: the cursor never advances and the
loop runs forever on any non-empty stream (every fuel times out). -/
lemma decodeLoop_m0_timeout (bits : List Bool) (hne : bits ≠ []) :
    ∀ fuel, Decoder.decodeLoop (PhasedInParams.new 1) bits fuel 0
      = DecodeOutcome.timeout := by
  intro fuel
  induction fuel with
  | zero => rfl
  | succ f ih =>
      have hlen : 1 ≤ bits.length := by
        cases bits with
        | nil => exact absurd rfl hne
        | cons b t => simp
      have hm : (PhasedInParams.new 1).m = 0 := rfl
      have hP : (PhasedInParams.new 1).P = 1 := rfl
      simp only [decodeLoop_succ, hm, hP, Nat.add_zero, List.take_zero]
      rw [if_neg (by omega), if_pos (by omega)]
      have hbyte : Decoder.byte_from_bitslice [] = 0 := rfl
      rw [hbyte, if_neg (by omega), ih]

/-- `decodeSpecLoop` unfolding for positive fuel. -/
lemma decodeSpecLoop_succ (ps : PhasedInParams) (bits : List Bool) (f cursor : Nat) :
    decodeSpecLoop ps bits (f + 1) cursor =
      if cursor = bits.length then DecodeOutcome.ok []
      else if cursor + ps.m ≤ bits.length then
        let v := bitsVal ((bits.drop cursor).take ps.m)
        if v < ps.P then
          match decodeSpecLoop ps bits f (cursor + ps.m) with
          | DecodeOutcome.ok rest => DecodeOutcome.ok (v :: rest)
          | r => r
        else
          if cursor + ps.m < bits.length then
            let b : Nat := if bits.getD (cursor + ps.m) false then 1 else 0
            match decodeSpecLoop ps bits f (cursor + ps.m + 1) with
            | DecodeOutcome.ok rest =>
                DecodeOutcome.ok ((ps.P + (v - ps.P) * 2 + b) :: rest)
            | r => r
          else DecodeOutcome.fail
      else DecodeOutcome.fail := rfl

/-- The decode loop of the source and the arithmetic loop of the spec wording
agree for every parameter set the program can derive (`1 ≤ n ≤ 255`). -/
lemma decodeLoop_eq_spec {n : Nat} (h1 : 1 ≤ n) (h255 : n ≤ 255) (bits : List Bool) :
    ∀ fuel cursor,
      Decoder.decodeLoop (PhasedInParams.new n) bits fuel cursor
        = decodeSpecLoop (PhasedInParams.new n) bits fuel cursor := by
  intro fuel
  induction fuel with
  | zero => intro cursor; rfl
  | succ f ih =>
      intro cursor
      have hm7 : (PhasedInParams.new n).m ≤ 7 := m_le_seven h1 h255
      have hPle : (PhasedInParams.new n).P ≤ 2 ^ (PhasedInParams.new n).m := by
        rw [new_m]; exact new_P_le_pow h1
      have hpow128 : (2 : Nat) ^ (PhasedInParams.new n).m ≤ 128 := by
        calc (2 : Nat) ^ (PhasedInParams.new n).m ≤ 2 ^ 7 :=
              Nat.pow_le_pow_right (by omega) hm7
          _ = 128 := by norm_num
      simp only [decodeLoop_succ, decodeSpecLoop_succ]
      by_cases hc1 : cursor = bits.length
      · simp [hc1]
      rw [if_neg hc1, if_neg hc1]
      by_cases hc2 : cursor + (PhasedInParams.new n).m ≤ bits.length
      case neg => rw [if_neg hc2, if_neg hc2]
      rw [if_pos hc2, if_pos hc2]
      have hslice : ((bits.drop cursor).take (PhasedInParams.new n).m).length ≤ 8 := by
        rw [List.length_take]
        omega
      have hv : Decoder.byte_from_bitslice
            ((bits.drop cursor).take (PhasedInParams.new n).m)
          = bitsVal ((bits.drop cursor).take (PhasedInParams.new n).m) :=
        byte_from_bitslice_eq _ hslice
      rw [hv]
      have hvlt : bitsVal ((bits.drop cursor).take (PhasedInParams.new n).m)
          < 2 ^ (PhasedInParams.new n).m := by
        have hb := bitsVal_lt ((bits.drop cursor).take (PhasedInParams.new n).m)
        have hlen : ((bits.drop cursor).take (PhasedInParams.new n).m).length
            ≤ (PhasedInParams.new n).m := by
          rw [List.length_take]; omega
        calc bitsVal ((bits.drop cursor).take (PhasedInParams.new n).m)
            < 2 ^ ((bits.drop cursor).take (PhasedInParams.new n).m).length := hb
          _ ≤ 2 ^ (PhasedInParams.new n).m := Nat.pow_le_pow_right (by omega) hlen
      by_cases hP : bitsVal ((bits.drop cursor).take (PhasedInParams.new n).m)
          < (PhasedInParams.new n).P
      · rw [if_neg (by omega), if_pos hP, ih (cursor + (PhasedInParams.new n).m)]
      · rw [if_pos (by omega), if_neg hP]
        by_cases hc4 : cursor + (PhasedInParams.new n).m < bits.length
        case neg => rw [if_neg hc4, if_neg hc4]
        rw [if_pos hc4, if_pos hc4]
        have hmod : ((PhasedInParams.new n).P +
              (bitsVal ((bits.drop cursor).take (PhasedInParams.new n).m)
                - (PhasedInParams.new n).P) * 2
              + (if bits.getD (cursor + (PhasedInParams.new n).m) false then 1 else 0)) % 256
            = (PhasedInParams.new n).P +
              (bitsVal ((bits.drop cursor).take (PhasedInParams.new n).m)
                - (PhasedInParams.new n).P) * 2
              + (if bits.getD (cursor + (PhasedInParams.new n).m) false then 1 else 0) := by
          have hb1 : (if bits.getD (cursor + (PhasedInParams.new n).m) false
              then (1 : Nat) else 0) ≤ 1 := by
            split <;> omega
          apply Nat.mod_eq_of_lt
          omega
        rw [ih (cursor + (PhasedInParams.new n).m + 1), hmod]

/-! ### Deserialisation -/

lemma flatten_toBits8_length (rest : List Nat) :
    ((rest.map (toBitsMSB 8)).flatten).length = 8 * rest.length := by
  induction rest with
  | nil => simp
  | cons b t ih =>
      simp only [List.map_cons, List.flatten_cons, List.length_append,
        toBitsMSB_length, List.length_cons, ih]
      omega

lemma from_encoded_bytes_ok {b0 : Nat} {rest : List Nat} (h : b0 ≤ 8 * rest.length) :
    EncodedStream.from_encoded_bytes (b0 :: rest)
      = some { stream := ((rest.map (toBitsMSB 8)).flatten).take (8 * rest.length - b0)
               cap := 8 * rest.length } := by
  simp [EncodedStream.from_encoded_bytes, h]

lemma from_encoded_bytes_stream_length {b0 : Nat} {rest : List Nat}
    (h : b0 ≤ 8 * rest.length) :
    (((rest.map (toBitsMSB 8)).flatten).take (8 * rest.length - b0)).length
      = 8 * rest.length - b0 := by
  rw [List.length_take, flatten_toBits8_length]
  omega

/-! ### Claim theorems -/

/-- C1 (counterexample): the round-trip claim fails as stated for `N = 1`:
every symbol is encoded with `m = 0` bits, so the non-empty input `[0]`
encodes to the empty stream and decodes to `[]`, not `[0]`. -/
theorem C1_counterexample :
    ¬ (∀ n : Nat, 1 ≤ n → n ≤ 256 → ∀ S : List Nat, (∀ b ∈ S, b < n) →
        ∃ st, (populatedEncoder n).encode_bytes S = some st ∧
          Decoder.decode_stream (PhasedInParams.new n) st = DecodeOutcome.ok S) := by
  intro h
  obtain ⟨st, h1, h2⟩ := h 1 (by omega) (by omega) [0]
    (by intro b hb; simp at hb; omega)
  have he : (populatedEncoder 1).encode_bytes [0]
      = some { stream := [], cap := 8 } := by decide
  rw [he] at h1
  have hst : st = { stream := [], cap := 8 } := (Option.some.inj h1).symm
  subst hst
  have hd : Decoder.decode_stream (PhasedInParams.new 1) { stream := [], cap := 8 }
      = DecodeOutcome.ok [] := by decide
  rw [hd] at h2
  simp at h2

/-- C1 (amended): for every `N ∈ [2, 255]` and every byte sequence whose bytes
are all `< N`, decoding the encoding of `S` under the parameters derived from
`N`, with the encoder's symbol table populated as the pipeline intends,
returns exactly `S`.  (`N = 1` fails — see the counterexample — and `N = 256`
does not fit the `u8` parameter of `PhasedInParams::new`.) -/
theorem C1_round_trip (n : Nat) (h2 : 2 ≤ n) (h255 : n ≤ 255)
    (S : List Nat) (hS : ∀ s ∈ S, s < n) :
    ∃ st, (populatedEncoder n).encode_bytes S = some st ∧
      Decoder.decode_stream (PhasedInParams.new n) st = DecodeOutcome.ok S :=
  round_trip_aux h2 h255 S hS

/-- C1 (witness): the amended round trip at `N = 6`, input `[0,1,2,3,4,5]`. -/
theorem C1_round_trip_witness :
    (2 ≤ 6 ∧ 6 ≤ 255 ∧ ∀ s ∈ [0, 1, 2, 3, 4, 5], s < 6) ∧
    ∃ st, (populatedEncoder 6).encode_bytes [0, 1, 2, 3, 4, 5] = some st ∧
      Decoder.decode_stream (PhasedInParams.new 6) st
        = DecodeOutcome.ok [0, 1, 2, 3, 4, 5] :=
  ⟨⟨by omega, by omega, by decide⟩,
   C1_round_trip 6 (by omega) (by omega) [0, 1, 2, 3, 4, 5] (by decide)⟩

/-- C2 (code bug, evaluated at the failing input): at `N = 6` with input
`[0, 0]` the stream holds `L = 4` bits in a 16-bit allocation, and
`write_to_file` writes header byte `capacity − len = 12` — not the value
`(8 − L mod 8) mod 8 = 4` that the claim (and the function's own doc comment)
require; the payload length `1 + ⌈L / 8⌉ = 2` half of the claim does hold
here. -/
theorem C2_header_capacity_bug :
    ((populatedEncoder 6).encode_bytes [0, 0]).map EncodedStream.write_to_file
        = some [12, 0] ∧
    ((populatedEncoder 6).encode_bytes [0, 0]).map (fun st => st.stream.length)
        = some 4 ∧
    (8 - 4 % 8) % 8 = 4 ∧ (12 : Nat) ≠ 4 := by
  refine ⟨by decide, by decide, by decide, by decide⟩

/-- C3: `encode_bytes` on a fresh encoder (empty `encoded_symbols` table)
fails for every parameter set and every non-empty input (the Rust code indexes
the empty vector and panics, modelled as `none`); `main`'s compress arm does
exactly that, so it fails on every non-empty input; a populated table with an
out-of-range byte also fails; and with the table populated and every byte
`< num_symbols` the encode succeeds — the unstated precondition of
`encode_bytes`. -/
theorem C3_encode_bytes_precondition :
    (∀ (ps : PhasedInParams) (bytes : List Nat), bytes ≠ [] →
        (Encoder.new ps).encode_bytes bytes = none) ∧
    (∀ (n : Nat) (input : List Nat), input ≠ [] → mainCompress n input = none) ∧
    (∀ (n b : Nat) (bytes : List Nat), n ≤ b →
        (populatedEncoder n).encode_bytes (b :: bytes) = none) ∧
    (∀ (n : Nat) (bytes : List Nat), (∀ x ∈ bytes, x < n) →
        ∃ st, (populatedEncoder n).encode_bytes bytes = some st) := by
  have h1 : ∀ (ps : PhasedInParams) (bytes : List Nat), bytes ≠ [] →
      (Encoder.new ps).encode_bytes bytes = none := by
    intro ps bytes hne
    unfold Encoder.encode_bytes
    rw [show (Encoder.new ps).encoded_symbols = [] from rfl,
      lookupAll_nil_table bytes hne]
    rfl
  refine ⟨h1, ?_, ?_, ?_⟩
  · intro n input hne
    show Option.map EncodedStream.write_to_file
        ((Encoder.new (PhasedInParams.new n)).encode_bytes input) = none
    rw [h1 _ input hne]
    rfl
  · intro n b bytes hb
    unfold Encoder.encode_bytes
    rw [lookupAll_out_of_range hb bytes]
    rfl
  · intro n bytes h
    exact ⟨_, encode_bytes_populated bytes h⟩

/-- C3 (witness): concrete instances of all four parts at `N = 6`. -/
theorem C3_encode_bytes_precondition_witness :
    (Encoder.new (PhasedInParams.new 6)).encode_bytes [0] = none ∧
    mainCompress 6 [0] = none ∧
    (populatedEncoder 6).encode_bytes [9] = none ∧
    ∃ st, (populatedEncoder 6).encode_bytes [0, 5] = some st :=
  ⟨C3_encode_bytes_precondition.1 (PhasedInParams.new 6) [0] (by simp),
   C3_encode_bytes_precondition.2.1 6 [0] (by simp),
   C3_encode_bytes_precondition.2.2.1 6 9 [] (by omega),
   C3_encode_bytes_precondition.2.2.2 6 [0, 5] (by decide)⟩

/-- C4 (counterexample): at `N = 1` (allowed by the claim's range `[1, 256]`)
the valid symbol `0` is encoded with bit-length `m = 0`, refuting the claim's
"never zero". -/
theorem C4_counterexample :
    ¬ (∀ n : Nat, 1 ≤ n → n ≤ 256 → ∀ s : Nat, s < n →
        ((((Encoder.new (PhasedInParams.new n)).encode_symbol s).num_bits_encoded
            = (PhasedInParams.new n).m ∨
          ((Encoder.new (PhasedInParams.new n)).encode_symbol s).num_bits_encoded
            = (PhasedInParams.new n).m + 1) ∧
         ((Encoder.new (PhasedInParams.new n)).encode_symbol s).num_bits_encoded ≠ 0 ∧
         ((Encoder.new (PhasedInParams.new n)).encode_symbol s).num_bits_encoded ≤ 9)) := by
  intro h
  obtain ⟨-, hne, -⟩ := h 1 (by omega) (by omega) 0 (by omega)
  exact hne (by decide)

/-- C4 (amended): for every `N ∈ [2, 255]` and every symbol `< N`, the encoded
bit-length is `m` or `m + 1`, is never zero, and never exceeds 9.  (`N = 1`
gives length `m = 0`; `N = 256` does not fit the `u8` parameter.) -/
theorem C4_codeword_length (n s : Nat) (h2 : 2 ≤ n) (h255 : n ≤ 255)
    (hs : s < n) :
    (((Encoder.new (PhasedInParams.new n)).encode_symbol s).num_bits_encoded
        = (PhasedInParams.new n).m ∨
      ((Encoder.new (PhasedInParams.new n)).encode_symbol s).num_bits_encoded
        = (PhasedInParams.new n).m + 1) ∧
    ((Encoder.new (PhasedInParams.new n)).encode_symbol s).num_bits_encoded ≠ 0 ∧
    ((Encoder.new (PhasedInParams.new n)).encode_symbol s).num_bits_encoded ≤ 9 := by
  have hm1 : 1 ≤ (PhasedInParams.new n).m := one_le_m h2
  have hm7 : (PhasedInParams.new n).m ≤ 7 := m_le_seven (by omega) h255
  by_cases hP : s < (PhasedInParams.new n).P
  · rw [encode_symbol_short (by omega) h255 s hP]
    exact ⟨Or.inl rfl, by simp only; omega, by simp only; omega⟩
  · rw [encode_symbol_long (by omega) h255 s (by omega) hs]
    exact ⟨Or.inr rfl, by simp only; omega, by simp only; omega⟩

/-- C4 (witness): the amended claim at `N = 9`, symbol `7` (length 4). -/
theorem C4_codeword_length_witness :
    (2 ≤ 9 ∧ 9 ≤ 255 ∧ 7 < 9) ∧
    ((((Encoder.new (PhasedInParams.new 9)).encode_symbol 7).num_bits_encoded
        = (PhasedInParams.new 9).m ∨
      ((Encoder.new (PhasedInParams.new 9)).encode_symbol 7).num_bits_encoded
        = (PhasedInParams.new 9).m + 1) ∧
    ((Encoder.new (PhasedInParams.new 9)).encode_symbol 7).num_bits_encoded ≠ 0 ∧
    ((Encoder.new (PhasedInParams.new 9)).encode_symbol 7).num_bits_encoded ≤ 9) :=
  ⟨⟨by omega, by omega, by omega⟩,
   C4_codeword_length 9 7 (by omega) (by omega) (by omega)⟩

/-- C5: `encode_symbol` computes exactly the spec's formulas — below the
threshold `P` the codeword is the symbol masked to `m` bits with length `m`;
at or above it, with `offset = symbol − P`, the codeword is
`((P + offset / 2) masked to m bits) << 1 | (offset mod 2)` with length
`m + 1` (masking written as `% 2 ^ m`, the shift-or as `· * 2 + ·`). -/
theorem C5_encode_symbol_formula (n s : Nat) (h1 : 1 ≤ n) (h255 : n ≤ 255)
    (hs : s < n) :
    (Encoder.new (PhasedInParams.new n)).encode_symbol s =
      if s < (PhasedInParams.new n).P then
        { symbol := s % 2 ^ (PhasedInParams.new n).m
          num_bits_encoded := (PhasedInParams.new n).m }
      else
        { symbol := ((PhasedInParams.new n).P + (s - (PhasedInParams.new n).P) / 2)
              % 2 ^ (PhasedInParams.new n).m * 2 + (s - (PhasedInParams.new n).P) % 2
          num_bits_encoded := (PhasedInParams.new n).m + 1 } := by
  by_cases hP : s < (PhasedInParams.new n).P
  · rw [if_pos hP, encode_symbol_short h1 h255 s hP]
    have hPle := new_P_le_pow h1
    have hsp : s < 2 ^ (PhasedInParams.new n).m := by rw [new_m]; omega
    rw [Nat.mod_eq_of_lt hsp]
  · rw [if_neg hP, encode_symbol_long h1 h255 s (by omega) hs]
    have hle : 2 ^ floorLog2 n ≤ n := pow_floorLog2_le h1
    have hlt : n < 2 ^ (floorLog2 n + 1) := lt_pow_floorLog2 h1
    have hPe : (PhasedInParams.new n).P = 2 ^ (floorLog2 n + 1) - n := new_P_eq h1
    have hpow : (2 : Nat) ^ (floorLog2 n + 1) = 2 ^ floorLog2 n * 2 := Nat.pow_succ 2 _
    have hbase : (PhasedInParams.new n).P + (s - (PhasedInParams.new n).P) / 2
        < 2 ^ (PhasedInParams.new n).m := by
      rw [new_m, hPe]; omega
    rw [Nat.mod_eq_of_lt hbase, Nat.mul_comm]

/-- C5 (witness): the formula at `N = 9`, symbol `7` (the long class). -/
theorem C5_encode_symbol_formula_witness :
    (1 ≤ 9 ∧ 9 ≤ 255 ∧ 7 < 9) ∧
    (Encoder.new (PhasedInParams.new 9)).encode_symbol 7 =
      (if 7 < (PhasedInParams.new 9).P then
        { symbol := 7 % 2 ^ (PhasedInParams.new 9).m
          num_bits_encoded := (PhasedInParams.new 9).m }
      else
        { symbol := ((PhasedInParams.new 9).P + (7 - (PhasedInParams.new 9).P) / 2)
              % 2 ^ (PhasedInParams.new 9).m * 2 + (7 - (PhasedInParams.new 9).P) % 2
          num_bits_encoded := (PhasedInParams.new 9).m + 1 }) :=
  ⟨⟨by omega, by omega, by omega⟩,
   C5_encode_symbol_formula 9 7 (by omega) (by omega) (by omega)⟩

/-- C6: each step of the source decode loop behaves exactly as the spec
describes — with `v` the unsigned value of the next `m` bits at the cursor,
if `v < P` the symbol is `v` and the cursor advances by `m`; otherwise one
more bit `b` is read, the symbol is `P + (v − P) × 2 + b` and the cursor
advances by `m + 1`; symbols are produced left to right until the cursor
reaches the end.  Stated as: the loop equals the spec-worded loop
`decodeSpecLoop` at every fuel and cursor, and so does `decode_stream`. -/
theorem C6_decode_step (n : Nat) (h1 : 1 ≤ n) (h255 : n ≤ 255) :
    (∀ st : EncodedStream,
        Decoder.decode_stream (PhasedInParams.new n) st
          = decodeSpecLoop (PhasedInParams.new n) st.stream (st.stream.length + 1) 0) ∧
    (∀ (bits : List Bool) (fuel cursor : Nat),
        Decoder.decodeLoop (PhasedInParams.new n) bits fuel cursor
          = decodeSpecLoop (PhasedInParams.new n) bits fuel cursor) := by
  constructor
  · intro st
    unfold Decoder.decode_stream
    exact decodeLoop_eq_spec h1 h255 st.stream (st.stream.length + 1) 0
  · intro bits fuel cursor
    exact decodeLoop_eq_spec h1 h255 bits fuel cursor

/-- C6 (witness): the loop equivalence at `N = 9` on a concrete stream. -/
theorem C6_decode_step_witness :
    Decoder.decode_stream (PhasedInParams.new 9)
        { stream := [true, true, true, false, true], cap := 8 }
      = decodeSpecLoop (PhasedInParams.new 9) [true, true, true, false, true] 6 0 :=
  (C6_decode_step 9 (by omega) (by omega)).1
    { stream := [true, true, true, false, true], cap := 8 }

/-- C7 (counterexample): the claim's range `[1, 256]` includes `N = 256`,
which cannot be passed to `PhasedInParams::new` at all (its parameter is a
`u8`), so no codeword sets exist there. -/
theorem C7_counterexample :
    ¬ (∀ n : Nat, 1 ≤ n → n ≤ 256 →
        ∃ ps, PhasedInParams.new? n = some ps ∧
          ∀ s1 s2 : Nat, s1 < ps.P → ps.P ≤ s2 → s2 < n →
            ((Encoder.new ps).encode_symbol s1).to_bitvec
              ≠ (((Encoder.new ps).encode_symbol s2).to_bitvec).take ps.m) := by
  intro h
  obtain ⟨ps, hps, -⟩ := h 256 (by omega) (by omega)
  rw [show PhasedInParams.new? 256 = none from rfl] at hps
  exact Option.noConfusion hps

/-- C7 (amended): for every `N ∈ [1, 255]`, every short symbol's `m`-bit
codeword differs from the `m`-bit prefix of every long symbol's `(m+1)`-bit
codeword; indeed short codewords are `< P` and long prefixes are `≥ P`, so the
first `m` bits alone decide the class. -/
theorem C7_class_separation (n s1 s2 : Nat) (h1 : 1 ≤ n) (h255 : n ≤ 255)
    (hs1 : s1 < (PhasedInParams.new n).P)
    (hs2P : (PhasedInParams.new n).P ≤ s2) (hs2n : s2 < n) :
    ((Encoder.new (PhasedInParams.new n)).encode_symbol s1).symbol
        < (PhasedInParams.new n).P ∧
    (PhasedInParams.new n).P ≤
        ((Encoder.new (PhasedInParams.new n)).encode_symbol s2).symbol / 2 ∧
    ((Encoder.new (PhasedInParams.new n)).encode_symbol s1).to_bitvec
      ≠ (((Encoder.new (PhasedInParams.new n)).encode_symbol s2).to_bitvec).take
          (PhasedInParams.new n).m := by
  have hle : 2 ^ floorLog2 n ≤ n := pow_floorLog2_le h1
  have hlt : n < 2 ^ (floorLog2 n + 1) := lt_pow_floorLog2 h1
  have hPe : (PhasedInParams.new n).P = 2 ^ (floorLog2 n + 1) - n := new_P_eq h1
  have hpow : (2 : Nat) ^ (floorLog2 n + 1) = 2 ^ floorLog2 n * 2 := Nat.pow_succ 2 _
  have hPle := new_P_le_pow h1
  have hbase : (PhasedInParams.new n).P + (s2 - (PhasedInParams.new n).P) / 2
      < 2 ^ (PhasedInParams.new n).m := by
    rw [new_m, hPe]; omega
  have hs1p : s1 < 2 ^ (PhasedInParams.new n).m := by rw [new_m]; omega
  have hr : (s2 - (PhasedInParams.new n).P) % 2 < 2 := Nat.mod_lt _ (by omega)
  refine ⟨?_, ?_, ?_⟩
  · rw [encode_symbol_short h1 h255 s1 hs1]
    exact hs1
  · rw [encode_symbol_long h1 h255 s2 hs2P hs2n]
    simp only
    omega
  · rw [to_bitvec_short h1 h255 s1 hs1, to_bitvec_long h1 h255 s2 hs2P hs2n]
    rw [List.take_left' (toBitsMSB_length _ _)]
    intro heq
    have hv := congrArg bitsVal heq
    rw [bitsVal_toBitsMSB _ s1 hs1p, bitsVal_toBitsMSB _ _ hbase] at hv
    omega

/-- C7 (witness): the amended separation at `N = 9`, `s1 = 1`, `s2 = 7`. -/
theorem C7_class_separation_witness :
    (1 ≤ 9 ∧ 9 ≤ 255 ∧ 1 < (PhasedInParams.new 9).P ∧
      (PhasedInParams.new 9).P ≤ 7 ∧ 7 < 9) ∧
    (((Encoder.new (PhasedInParams.new 9)).encode_symbol 1).symbol
        < (PhasedInParams.new 9).P ∧
    (PhasedInParams.new 9).P ≤
        ((Encoder.new (PhasedInParams.new 9)).encode_symbol 7).symbol / 2 ∧
    ((Encoder.new (PhasedInParams.new 9)).encode_symbol 1).to_bitvec
      ≠ (((Encoder.new (PhasedInParams.new 9)).encode_symbol 7).to_bitvec).take
          (PhasedInParams.new 9).m) :=
  ⟨⟨by omega, by omega, by decide, by decide, by omega⟩,
   C7_class_separation 9 1 7 (by omega) (by omega) (by decide) (by decide) (by omega)⟩

/-- C8 (counterexample): the claimed range `[1, 256]` includes `N = 256`,
which cannot be passed to `PhasedInParams::new` (a `u8` parameter), so no
parameters are computed there at all. -/
theorem C8_counterexample :
    ¬ (∀ n : Nat, 1 ≤ n → n ≤ 256 →
        ∃ ps, PhasedInParams.new? n = some ps ∧
          ps.p + ps.P = 2 ^ ps.m ∧ ps.p < 2 ^ ps.m ∧ ps.P ≤ n) := by
  intro h
  obtain ⟨ps, hps, -⟩ := h 256 (by omega) (by omega)
  rw [show PhasedInParams.new? 256 = none from rfl] at hps
  exact Option.noConfusion hps

/-- C8 (amended): for every `N ∈ [1, 255]` the derived parameters satisfy
`p + P = 2 ^ m`, `0 ≤ p < 2 ^ m` (`0 ≤ p` holds trivially in `Nat`), and
`P ≤ N`. -/
theorem C8_param_invariants (n : Nat) (h1 : 1 ≤ n) (h255 : n ≤ 255) :
    (PhasedInParams.new n).p + (PhasedInParams.new n).P
        = 2 ^ (PhasedInParams.new n).m ∧
    (PhasedInParams.new n).p < 2 ^ (PhasedInParams.new n).m ∧
    (PhasedInParams.new n).P ≤ n := by
  have hle : 2 ^ floorLog2 n ≤ n := pow_floorLog2_le h1
  have hlt : n < 2 ^ (floorLog2 n + 1) := lt_pow_floorLog2 h1
  have hpow : (2 : Nat) ^ (floorLog2 n + 1) = 2 ^ floorLog2 n * 2 := Nat.pow_succ 2 _
  have hp := new_p n
  have hPe := new_P_eq h1
  have hm := new_m n
  refine ⟨?_, ?_, ?_⟩
  · rw [hp, hPe, hm]; omega
  · rw [hp, hm]; omega
  · rw [hPe]; omega

/-- C8 (witness): the invariants at `N = 9` (`m = 3`, `p = 1`, `P = 7`). -/
theorem C8_param_invariants_witness :
    (1 ≤ 9 ∧ 9 ≤ 255) ∧
    ((PhasedInParams.new 9).p + (PhasedInParams.new 9).P
        = 2 ^ (PhasedInParams.new 9).m ∧
    (PhasedInParams.new 9).p < 2 ^ (PhasedInParams.new 9).m ∧
    (PhasedInParams.new 9).P ≤ 9) :=
  ⟨⟨by omega, by omega⟩, C8_param_invariants 9 (by omega) (by omega)⟩

/-- C9 (counterexample): the claim as stated admits the one-byte buffer `[3]`
(`total_bytes = 1`, header `3 ∈ [0, 7]`), where the used-bit count
`(total_bytes − 1) * 8 − unused = −3` underflows: `from_encoded_bytes` panics
(modelled `none`) instead of producing a bit sequence of that length. -/
theorem C9_counterexample :
    ¬ (∀ bytes : List Nat, 1 ≤ bytes.length → bytes.headD 0 ≤ 7 →
        ∃ s, EncodedStream.from_encoded_bytes bytes = some s ∧
          (s.stream.length : Int)
            = 8 * ((bytes.length : Int) - 1) - (bytes.headD 0 : Int)) := by
  intro h
  obtain ⟨s, hs, -⟩ := h [3] (by simp) (by decide)
  rw [show EncodedStream.from_encoded_bytes [3] = none from rfl] at hs
  exact Option.noConfusion hs

/-- C9 (amended): for every buffer `b0 :: rest` whose header `b0` is at most
`8 × (total_bytes − 1)` (in particular every well-formed header in `[0, 7]`
with at least one payload byte, or a zero header), `from_encoded_bytes`
returns the first `8 × (total_bytes − 1) − b0` bits of the payload bytes
read MSB-first, in order. -/
theorem C9_deserialize (b0 : Nat) (rest : List Nat) (h : b0 ≤ 8 * rest.length) :
    ∃ s, EncodedStream.from_encoded_bytes (b0 :: rest) = some s ∧
      s.stream = ((rest.map (toBitsMSB 8)).flatten).take (8 * rest.length - b0) ∧
      s.stream.length = 8 * rest.length - b0 :=
  ⟨_, from_encoded_bytes_ok h, rfl, from_encoded_bytes_stream_length h⟩

/-- C9 (witness): deserialising `[4, 0b10110000]` yields the 4 bits `1011`. -/
theorem C9_deserialize_witness :
    (4 ≤ 8 * [176].length) ∧
    ∃ s, EncodedStream.from_encoded_bytes [4, 176] = some s ∧
      s.stream = (([176].map (toBitsMSB 8)).flatten).take (8 * [176].length - 4) ∧
      s.stream.length = 8 * [176].length - 4 :=
  ⟨by simp, C9_deserialize 4 [176] (by simp)⟩

/-- C10: with parameters from any `N ∈ [2, 255]` (`m ≥ 1`) the decode loop
reaches a verdict within `bits.length + 1` iterations — both for the loop at
any sufficient fuel and for `decode_stream` itself — because every iteration
advances the cursor by at least `m ≥ 1`; and the precondition is necessary:
for `N = 1` (`m = 0`) the cursor never advances, and on every non-empty
stream the loop times out at every fuel. -/
theorem C10_termination :
    (∀ (n : Nat) (bits : List Bool) (fuel : Nat), 2 ≤ n → n ≤ 255 →
        bits.length < fuel →
        Decoder.decodeLoop (PhasedInParams.new n) bits fuel 0
          ≠ DecodeOutcome.timeout) ∧
    (∀ (n : Nat) (st : EncodedStream), 2 ≤ n → n ≤ 255 →
        Decoder.decode_stream (PhasedInParams.new n) st ≠ DecodeOutcome.timeout) ∧
    (∀ bits : List Bool, bits ≠ [] → ∀ fuel : Nat,
        Decoder.decodeLoop (PhasedInParams.new 1) bits fuel 0
          = DecodeOutcome.timeout) := by
  refine ⟨?_, ?_, ?_⟩
  · intro n bits fuel h2 h255 hf
    exact decodeLoop_no_timeout h2 h255 bits fuel 0 (by omega)
  · intro n st h2 h255
    unfold Decoder.decode_stream
    exact decodeLoop_no_timeout h2 h255 st.stream (st.stream.length + 1) 0 (by omega)
  · intro bits hne fuel
    exact decodeLoop_m0_timeout bits hne fuel

/-- C10 (witness): termination at `N = 2` and divergence at `N = 1` on the
one-bit stream `[1]`. -/
theorem C10_termination_witness :
    (Decoder.decodeLoop (PhasedInParams.new 2) [true] 2 0 ≠ DecodeOutcome.timeout) ∧
    (Decoder.decode_stream (PhasedInParams.new 2) { stream := [true], cap := 8 }
        ≠ DecodeOutcome.timeout) ∧
    (Decoder.decodeLoop (PhasedInParams.new 1) [true] 5 0 = DecodeOutcome.timeout) :=
  ⟨C10_termination.1 2 [true] 2 (by omega) (by omega) (by simp),
   C10_termination.2.1 2 { stream := [true], cap := 8 } (by omega) (by omega),
   C10_termination.2.2 [true] (by simp) 5⟩

end PhasedIn
